import Mathlib

/-!
Shallow embedding of the `mogen` chess move generator (Rust) and proofs
about it.  Bitboards are `Nat` values whose meaningful bits are 0..63;
every operation that can overflow 64 bits in the source is reduced
`% 2^64` explicitly.  Rust panics (out-of-range indexing, missing king)
are modelled by `Option`/`none`.
-/

namespace Mogen

/-- `coords` from `static/generation.rs`: `(rank, file)` of a square index. -/
def coords (v : Nat) : Nat × Nat := (v / 8, v % 8)

/-- `in_bounds` from `static/generation.rs`: the board has squares 0..63. -/
def inBounds (v : Int) : Bool := 0 ≤ v && v < 64

/-- `u8::abs_diff`. -/
def absDiff (a b : Nat) : Nat := if a ≤ b then b - a else a - b

/-- Bitwise complement of a `u64` (`!x` in Rust), as a `Nat` operation. -/
def compl64 (x : Nat) : Nat := 0xffffffffffffffff ^^^ x

/-- `u64` left shift: high bits are discarded. -/
def shl64 (x n : Nat) : Nat := (x <<< n) % 2 ^ 64

/-- Fuel-driven binary count of trailing zeros: with the fuel exhausted
it answers the accumulated count, so `ctzAux 64 0 = 64`. -/
def ctzAux : Nat → Nat → Nat
  | 0, _ => 0
  | fuel + 1, x => if x % 2 = 1 then 0 else 1 + ctzAux fuel (x / 2)

/-- `u64::trailing_zeros`, which is 64 on the zero bitboard
(`Bitboard::pop_lsb` feeds this straight into `Square::ALL[i]`).
64 units of fuel are exact for a value below `2^64`. -/
def ctz (x : Nat) : Nat := ctzAux 64 x

/-- Fuel-driven bit popping; a `u64` has at most 64 set bits, so the
fuel of 64 used below never runs out. -/
def popLsbAux : Nat → Nat → List Nat
  | 0, _ => []
  | fuel + 1, x => if x = 0 then [] else ctz x :: popLsbAux fuel (x &&& (x - 1))

/-- The `while !bb.is_empty() { bb.pop_lsb() }` idiom: the indices of the
set bits, least-significant first (`pop_lsb` returns `ctz` then clears the
low bit with `x &= x - 1`). -/
def popLsbSeq (x : Nat) : List Nat := popLsbAux 64 x

/-- `Subsets::next` from `board/bitboard.rs`, iterated to a list.  The
iterator state is `(set, subset)`; note that when the decremented subset
reaches zero the source yields `Bitboard::EMPTY` in place of the current
value and then stops.  The subset value strictly decreases on every
step, so the fuel passed below (`set + 1`) never runs out. -/
def subsetsAux : Nat → Nat → Nat → List Nat
  | 0, _, _ => []
  | fuel + 1, set, sub =>
    if sub = 0 then []
    else
      let nxt := (sub - 1) &&& set
      if nxt = 0 then [0] else sub :: subsetsAux fuel set nxt

/-- `Bitboard::subsets`: the iterator starts with `subset = set`. -/
def subsetsList (set : Nat) : List Nat := subsetsAux (set + 1) set set

/-- One sliding ray of `Direction::sliding_moves` (`magic/mod.rs`): walk
from `origin` by `off`; include each stepped-to square that stays on the
board and passes the rank/file wrap check; stop after including a square
whose bit is set in `blockers`.  The source `while in_bounds(origin)`
loop only exits through its `break`s; each iteration moves `origin` by
the nonzero `off`, so 64 units of fuel are more than the at most 7
iterations the walk can make. -/
def rayAux (blockers : Nat) (off : Int) : Nat → Nat → Nat
  | _, 0 => 0
  | origin, fuel + 1 =>
    let target : Int := (origin : Int) + off
    if inBounds target then
      let t : Nat := target.toNat
      if absDiff (coords origin).1 (coords t).1 > 1 ||
         absDiff (coords origin).2 (coords t).2 > 1 then 0
      else if Nat.testBit blockers t then 1 <<< t
      else (1 <<< t) ||| rayAux blockers off t fuel
    else 0

/-- `Direction::sliding_moves`: union of the four rays. -/
def slidingMoves (square blockers : Nat) (offsets : List Int) : Nat :=
  offsets.foldl (fun mask off => mask ||| rayAux blockers off square 64) 0

/-- One ray of `sliding_move_mask` (`static/generation.rs`): same walk
but with no blocker stop (raw ray template). -/
def rayMaskAux (off : Int) : Nat → Nat → Nat
  | _, 0 => 0
  | origin, fuel + 1 =>
    let target : Int := (origin : Int) + off
    if inBounds target then
      let t : Nat := target.toNat
      if absDiff (coords origin).1 (coords t).1 > 1 ||
         absDiff (coords origin).2 (coords t).2 > 1 then 0
      else (1 <<< t) ||| rayMaskAux off t fuel
    else 0

/-- `sliding_move_mask` from `static/generation.rs`. -/
def slidingMoveMask (square : Nat) (offsets : List Int) : Nat :=
  offsets.foldl (fun mask off => mask ||| rayMaskAux off square 64) 0

/-- `bishop_move_mask`. -/
def bishopMoveMask (square : Nat) : Nat := slidingMoveMask square [-7, -9, 7, 9]

/-- `rook_move_mask`. -/
def rookMoveMask (square : Nat) : Nat := slidingMoveMask square [1, 8, -1, -8]

/-- `knight_move_mask` from `static/generation.rs`. -/
def knightMoveMask (square : Nat) : Nat :=
  [15, 17, 6, 10, -15, -17, -6, -10].foldl (fun mask off =>
    let target : Int := (square : Int) + off
    if !inBounds target then mask
    else
      let t : Nat := target.toNat
      if absDiff (coords square).1 (coords t).1 > 2 then mask
      else if absDiff (coords square).2 (coords t).2 > 2 then mask
      else mask ||| (1 <<< t)) 0

/-- `king_move_mask` from `static/generation.rs`. -/
def kingMoveMask (square : Nat) : Nat :=
  [1, 7, 8, 9, -1, -7, -8, -9].foldl (fun mask off =>
    let target : Int := (square : Int) + off
    if !inBounds target then mask
    else
      let t : Nat := target.toNat
      if absDiff (coords square).1 (coords t).1 > 1 ||
         absDiff (coords square).2 (coords t).2 > 1 then mask
      else mask ||| (1 <<< t)) 0

/-! ### Colors, pieces, moves, flags -/

/-- `Color` from `board/color.rs`. -/
inductive Color where
  | white
  | black
deriving DecidableEq

/-- `Color::inverse`. -/
def Color.inverse : Color → Color
  | .white => .black
  | .black => .white

/-- `Color::direction`. -/
def Color.direction : Color → Int
  | .white => 1
  | .black => -1

/-- Index of a color's occupancy plane inside `Board::bitboards`
(`color as usize + 6`). -/
def Color.idx : Color → Fin 8
  | .white => 6
  | .black => 7

/-- `Piece` from `board/piece.rs`. -/
inductive Piece where
  | pawn
  | knight
  | bishop
  | rook
  | queen
  | king
deriving DecidableEq

/-- Index of a piece's plane inside `Board::bitboards` (`piece as usize`). -/
def Piece.idx : Piece → Fin 8
  | .pawn => 0
  | .knight => 1
  | .bishop => 2
  | .rook => 3
  | .queen => 4
  | .king => 5

/-- `Piece::ALL[i]`; indices 6 and 7 are out of bounds (a Rust panic),
modelled as `none`. -/
def pieceAll (i : Nat) : Option Piece :=
  match i with
  | 0 => some .pawn
  | 1 => some .knight
  | 2 => some .bishop
  | 3 => some .rook
  | 4 => some .queen
  | 5 => some .king
  | _ => none

/-- `Piece::promotion_mask`. -/
def Piece.promotionMask : Piece → Nat
  | .pawn => 0
  | .knight => 1
  | .bishop => 2
  | .rook => 4
  | .queen => 8
  | .king => 0

/-- `Move` from `board/move.rs`: a packed 16-bit word `FFFFFFTTTTTTDDDD`. -/
structure Move where
  val : Nat
deriving DecidableEq

/-- `Move::new`. -/
def Move.new (source target : Nat) (promotion : Option Piece) : Move :=
  ⟨(source <<< 10) ||| (target <<< 4) |||
    (match promotion with | some p => p.promotionMask | none => 0)⟩

/-- `Move::source` (also called `Move::from` at its `make_move` call site). -/
def Move.source (m : Move) : Nat := m.val >>> 10

/-- `Move::target` (also called `Move::to` at its `make_move` call site). -/
def Move.target (m : Move) : Nat := 0b111111 &&& (m.val >>> 4)

/-- `Move::promotion`. -/
def Move.promotion (m : Move) : Option Piece :=
  match m.val &&& 0b1111 with
  | 1 => some .knight
  | 2 => some .bishop
  | 4 => some .rook
  | 8 => some .queen
  | _ => none

/-- `Flags::can_en_passant` (`board/flags.rs`); `EN_PASSANT_MASK = 0b00010000`. -/
def canEnPassant (flags : Nat) : Bool := flags &&& 0b00010000 > 0

/-- `Flags::en_passant_file`. -/
def enPassantFile (flags : Nat) : Nat := flags >>> 5

/-- `Flags::set_en_passant`: clear bit 4, then OR in `(value as u8) << 4`.
`!EN_PASSANT_MASK` on `u8` is `0b11101111`. -/
def setEnPassant (flags : Nat) (value : Bool) : Nat :=
  (flags &&& 0b11101111) ||| ((if value then 1 else 0) <<< 4)

/-- `Flags::set_en_passant_file`: clear bits 5..7 (`!FILE_MASK = 0b00011111`),
then OR in `value << 5` (a `u8` shift, so reduced mod 256). -/
def setEnPassantFile (flags value : Nat) : Nat :=
  (flags &&& 0b00011111) ||| ((value <<< 5) % 256)

/-! ### Board -/

/-- `Board` from `board/mod.rs`: eight bitboards indexed
`[Pawn, Knight, Bishop, Rook, Queen, King, WhiteOcc, BlackOcc]`,
the active color, the packed flags byte, and the clocks. -/
structure Board where
  bitboards : Fin 8 → Nat
  activeColor : Color
  flags : Nat
  halfmoves : Nat
  fullmoves : Nat

/-- `Board::new`: empty board. -/
def Board.new : Board :=
  { bitboards := fun _ => 0
    activeColor := .white
    flags := 0
    halfmoves := 0
    fullmoves := 0 }

/-- `Board::default`: the standard starting position (literal constants
from the source). -/
def Board.default : Board :=
  { bitboards := fun i =>
      match i with
      | 0 => 0xff00000000ff00
      | 1 => 0x4200000000000042
      | 2 => 0x2400000000000024
      | 3 => 0x8100000000000081
      | 4 => 0x800000000000008
      | 5 => 0x1000000000000010
      | 6 => 0xffff
      | 7 => 0xffff000000000000
    activeColor := .white
    flags := 0b00001111
    halfmoves := 0
    fullmoves := 1 }

/-- `Board::piece_bitboard`. -/
def Board.pieceBB (b : Board) (p : Piece) : Nat := b.bitboards p.idx

/-- `Board::color_bitboard`. -/
def Board.colorBB (b : Board) (c : Color) : Nat := b.bitboards c.idx

/-- `Board::bitboard`: pieces of one color. -/
def Board.bitboard (b : Board) (p : Piece) (c : Color) : Nat :=
  b.pieceBB p &&& b.colorBB c

/-- `Board::all_pieces`. -/
def Board.allPieces (b : Board) : Nat := b.colorBB .white ||| b.colorBB .black

/-- `Board::add_piece`: OR the square's bit into the piece plane and the
color plane. -/
def Board.addPiece (b : Board) (p : Piece) (c : Color) (square : Nat) : Board :=
  let pos := 1 <<< square
  let bb1 := Function.update b.bitboards p.idx (b.bitboards p.idx ||| pos)
  let bb2 := Function.update bb1 c.idx (bb1 c.idx ||| pos)
  { b with bitboards := bb2 }

/-- The scan inside `Board::piece_at`: index of the first of the eight
bitboards whose bit at `square` is set (the source loops `i = 0..8` over
`self.bitboards` testing `!(bitboard & mask).is_empty()`). -/
def Board.planeAt (b : Board) (square : Nat) : Option (Fin 8) :=
  if (b.bitboards 0).testBit square then some 0
  else if (b.bitboards 1).testBit square then some 1
  else if (b.bitboards 2).testBit square then some 2
  else if (b.bitboards 3).testBit square then some 3
  else if (b.bitboards 4).testBit square then some 4
  else if (b.bitboards 5).testBit square then some 5
  else if (b.bitboards 6).testBit square then some 6
  else if (b.bitboards 7).testBit square then some 7
  else none

/-- `Board::piece_at`: the scan hits `Piece::ALL[i]` which panics for the
occupancy planes (i = 6, 7); the panic is the outer `none`. -/
def Board.pieceAt (b : Board) (square : Nat) : Option (Option Piece) :=
  match b.planeAt square with
  | none => some none
  | some i => (pieceAll i).map some

/-- XOR a mask into one of the eight bitboards
(`*board.piece_bitboard_mut(p) ^= mask` and friends). -/
def updBB (bb : Fin 8 → Nat) (j : Fin 8) (m : Nat) : Fin 8 → Nat :=
  Function.update bb j (bb j ^^^ m)

/-- The en-passant removal inside `make_move`: XOR the captured square
out of the pawn plane and the enemy color plane. -/
def stepEpRemove (bb : Fin 8 → Nat) (fromColor : Color) (capturedI : Nat) :
    Fin 8 → Nat :=
  updBB (updBB bb Piece.pawn.idx (1 <<< capturedI))
    fromColor.inverse.idx (1 <<< capturedI)

/-- The "From" update of `make_move`: toggle `from` out of the mover's
piece plane and `from | to` in the mover's color plane. -/
def stepFrom (bb : Fin 8 → Nat) (fromPiece : Piece) (fromColor : Color)
    (fromSq toSq : Nat) : Fin 8 → Nat :=
  updBB (updBB bb fromPiece.idx (1 <<< fromSq))
    fromColor.idx ((1 <<< fromSq) ||| (1 <<< toSq))

/-- The "To" (capture) update of `make_move`: when the target held a
piece, toggle it out of its plane and out of the enemy color plane. -/
def stepCapture (bb : Fin 8 → Nat) (toPiece : Option Piece)
    (fromColor : Color) (toSq : Nat) : Fin 8 → Nat :=
  match toPiece with
  | some piece =>
    updBB (updBB bb piece.idx (1 <<< toSq)) fromColor.inverse.idx (1 <<< toSq)
  | none => bb

/-- The "Replace pieces" update of `make_move`: toggle `to` into the
promoted-to plane, or back into the mover's plane. -/
def stepPromo (bb : Fin 8 → Nat) (promotion : Option Piece)
    (fromPiece : Piece) (toSq : Nat) : Fin 8 → Nat :=
  match promotion with
  | some piece => updBB bb piece.idx (1 <<< toSq)
  | none => updBB bb fromPiece.idx (1 <<< toSq)

/-- `Board::make_move` (`board/mod.rs`).  Returns `none` when `piece_at`
panics (a square set in an occupancy plane but in no piece plane).
The en-passant test reads the *original* `self.flags`; the result's flags
start from the clone whose ep bit was cleared. -/
def Board.makeMove (b : Board) (mv : Move) : Option Board :=
  let flags1 := setEnPassant b.flags false
  let fromSq := mv.source
  let toSq := mv.target
  let promotion := mv.promotion
  let fromColor : Color :=
    if b.colorBB .white &&& (1 <<< fromSq) = 0 then .black else .white
  match b.pieceAt fromSq with
  | none => none
  | some none => some { b with flags := flags1 }
  | some (some fromPiece) =>
    match b.pieceAt toSq with
    | none => none
    | some toPiece =>
      let st : (Fin 8 → Nat) × Nat :=
        if fromPiece = Piece.pawn then
          let fromRank := (coords fromSq).1
          let fromFile := (coords fromSq).2
          let toRank := (coords toSq).1
          let toFile := (coords toSq).2
          let rankDiff := absDiff fromRank toRank
          let epRank : Nat := match fromColor with | .white => 5 | .black => 2
          let epFile := enPassantFile b.flags
          if rankDiff = 2 then
            (b.bitboards, setEnPassantFile (setEnPassant flags1 true) fromFile)
          else if canEnPassant b.flags ∧ toRank = epRank ∧ toFile = epFile then
            (stepEpRemove b.bitboards fromColor (fromRank * 8 + toFile), flags1)
          else (b.bitboards, flags1)
        else (b.bitboards, flags1)
      some { b with
        bitboards :=
          stepPromo
            (stepCapture (stepFrom st.1 fromPiece fromColor fromSq toSq)
              toPiece fromColor toSq)
            promotion fromPiece toSq
        flags := st.2 }

/-! ### Magic engine (`magic/mod.rs`) -/

/-- `MagicEntry`. -/
structure MagicEntry where
  mask : Nat
  magic : Nat
  indexBits : Nat

/-- `magic_index`: mask the blockers, `wrapping_mul` by the magic
(reduced mod `2^64`), and keep the top `index_bits` bits. -/
def magicIndex (entry : MagicEntry) (blockers : Nat) : Nat :=
  let b := blockers &&& entry.mask
  let hash := (b * entry.magic) % 2 ^ 64
  hash >>> (64 - entry.indexBits)

/-- `Direction`. -/
inductive Direction where
  | orthogonal
  | diagonal
deriving DecidableEq

/-- `Direction::moves`: the deterministic ray-trace attack set. -/
def Direction.moves : Direction → Nat → Nat → Nat
  | .orthogonal, square, blockers => slidingMoves square blockers [1, 8, -1, -8]
  | .diagonal, square, blockers => slidingMoves square blockers [7, 9, -7, -9]

/-- `Direction::rook_blockers`: the rook ray mask with each edge dropped
unless the square sits on that edge. -/
def rookBlockers (square : Nat) : Nat :=
  let mask0 := rookMoveMask square
  let rank := (coords square).1
  let file := (coords square).2
  let mask1 := if rank ≠ 0 then mask0 &&& compl64 0x00000000000000ff else mask0
  let mask2 := if rank ≠ 7 then mask1 &&& compl64 0xff00000000000000 else mask1
  let mask3 := if file ≠ 0 then mask2 &&& compl64 0x0101010101010101 else mask2
  if file ≠ 7 then mask3 &&& compl64 0x8080808080808080 else mask3

/-- `Direction::bishop_blockers`: the bishop ray mask with all edges
dropped (`EDGES = 0xff818181818181ff`). -/
def bishopBlockers (square : Nat) : Nat :=
  bishopMoveMask square &&& compl64 0xff818181818181ff

/-- `Direction::blockers`. -/
def Direction.blockers : Direction → Nat → Nat
  | .orthogonal, square => rookBlockers square
  | .diagonal, square => bishopBlockers square

/-- The loop body of `try_fill_table`: place each enumerated blocker
subset's ray-trace attack set at its magic index; an occupied slot with a
different value is a destructive collision (`Err`).  `List.set`/`getD`
model the `Vec` indexing (the indices are below `2^index_bits` for the
entries the construction builds). -/
def tryFillAux (square : Nat) (d : Direction) (entry : MagicEntry) :
    List Nat → List Nat → Option (List Nat)
  | [], table => some table
  | blockers :: rest, table =>
    let moves := d.moves square blockers
    let idx := magicIndex entry blockers
    let cur := table.getD idx 0
    if cur = 0 then tryFillAux square d entry rest (table.set idx moves)
    else if cur ≠ moves then none
    else tryFillAux square d entry rest table

/-- `try_fill_table`: fresh zero table of size `2^index_bits`, filled
over `entry.mask.subsets()`. -/
def tryFillTable (square : Nat) (d : Direction) (entry : MagicEntry) :
    Option (List Nat) :=
  tryFillAux square d entry (subsetsList entry.mask)
    (List.replicate (2 ^ entry.indexBits) 0)

/-- `SlidingMoveGen::rook_moves` / `bishop_moves` for one square: read the
table at the magic index (`self.rook_tables[i][magic_index(...)]`). -/
def tableLookup (table : List Nat) (entry : MagicEntry) (blockers : Nat) : Nat :=
  table.getD (magicIndex entry blockers) 0

/-! ### Move generator (`lib.rs`)

`MoveGen`'s sliding lookups go through the magic tables built at startup;
per §4.C/§5 of the specification their contract is the deterministic
ray-trace `Direction::moves`, which is what we use here (claim C1 below
settles how far the built tables actually honour that contract).  The
static mask tables `KNIGHT_MOVE_MASKS`, `KING_MOVE_MASKS`,
`WHITE/BLACK_PAWN_CAPTURE_MASKS` are the `static/move_masks.rs` constants
emitted by `bin/generate_static.rs`, i.e. exactly
`knight_move_mask`/`king_move_mask`/`pawn_capture_mask` per square. -/

/-- `pawn_capture_mask` from `static/generation.rs`. -/
def pawnCaptureMask (square : Nat) (color : Color) : Nat :=
  if square < 8 ∨ square > 55 then 0
  else
    (match color with
      | Color.white => ([7, 9] : List Int)
      | Color.black => [-7, -9]).foldl (fun mask off =>
      let target : Int := (square : Int) + off
      if !inBounds target then mask
      else
        let t : Nat := target.toNat
        if absDiff (coords square).1 (coords t).1 ≠ 1 ∨
           absDiff (coords square).2 (coords t).2 ≠ 1 then mask
        else mask ||| (1 <<< t)) 0

/-- `MoveGen::knight_moves`: mask out friendly pieces, then pop targets. -/
def MoveGen.knightMoves (b : Board) (color : Color) (square : Nat) : List Move :=
  let blockerMask := b.colorBB color
  let moveMask := knightMoveMask square &&& compl64 blockerMask
  (popLsbSeq moveMask).map (fun t => Move.new square t none)

/-- `MoveGen::bishop_moves`. -/
def MoveGen.bishopMoves (b : Board) (color : Color) (square : Nat) : List Move :=
  let blockers := b.allPieces
  let friendlyPieces := b.colorBB color
  let moveMask := Direction.diagonal.moves square blockers &&& compl64 friendlyPieces
  (popLsbSeq moveMask).map (fun t => Move.new square t none)

/-- `MoveGen::rook_moves`. -/
def MoveGen.rookMoves (b : Board) (color : Color) (square : Nat) : List Move :=
  let blockers := b.allPieces
  let friendlyPieces := b.colorBB color
  let moveMask := Direction.orthogonal.moves square blockers &&& compl64 friendlyPieces
  (popLsbSeq moveMask).map (fun t => Move.new square t none)

/-- `MoveGen::queen_moves`: rook moves then bishop moves. -/
def MoveGen.queenMoves (b : Board) (color : Color) (square : Nat) : List Move :=
  MoveGen.rookMoves b color square ++ MoveGen.bishopMoves b color square

/-- `MoveGen::king_moves`. -/
def MoveGen.kingMoves (b : Board) (color : Color) (square : Nat) : List Move :=
  let friendlyPieces := b.colorBB color
  let moveMask := kingMoveMask square &&& compl64 friendlyPieces
  (popLsbSeq moveMask).map (fun t => Move.new square t none)

/-- `MoveGen::moves_with_possible_promotions`: a single plain move for
targets on ranks 2..7 (`(8..56).contains(target)`), otherwise the
four-fold promotion fan-out. -/
def movesWithPossiblePromotions (source target : Nat) : List Move :=
  if 8 ≤ target ∧ target < 56 then [Move.new source target none]
  else
    [Move.new source target (some .knight), Move.new source target (some .bishop),
     Move.new source target (some .rook), Move.new source target (some .queen)]

/-- `MoveGen::pawn_moves`: single and double pushes with promotion
fan-out on singles.  The `u64` left shifts discard overflowing bits
(`shl64`); the push source is `target - 8*direction` (resp. `16`). -/
def MoveGen.pawnMoves (b : Board) (color : Color) : List Move :=
  let allPieces := b.allPieces
  let pawns := b.bitboard .pawn color
  let startRank : Nat :=
    match color with
    | .white => 0x000000000000ff00
    | .black => 0x00ff000000000000
  let unmovedPawns := pawns &&& startRank
  let singleMoveTargets :=
    match color with
    | Color.white => shl64 pawns 8 &&& compl64 allPieces
    | Color.black => (pawns >>> 8) &&& compl64 allPieces
  let doubleMoveTargets :=
    match color with
    | Color.white => shl64 (shl64 unmovedPawns 8 &&& compl64 allPieces) 8 &&& compl64 allPieces
    | Color.black => ((unmovedPawns >>> 8) &&& compl64 allPieces) >>> 8 &&& compl64 allPieces
  let singles := (popLsbSeq singleMoveTargets).flatMap (fun (t : Nat) =>
    movesWithPossiblePromotions (((t : Int) - 8 * color.direction).toNat) t)
  let doubles := (popLsbSeq doubleMoveTargets).map (fun (t : Nat) =>
    Move.new (((t : Int) - 16 * color.direction).toNat) t none)
  singles ++ doubles

/-- Modelled from the spec: `Board::en_passant_square` is called by
`MoveGen::pawn_captures` but its definition is not among the source
files.  §4.D: "The en-passant target square is derived from flags:
present iff `ep_available`; its rank is 5 (file+40) for
White-to-capture/Black-just-moved, 2 (file+16) for
Black-to-capture/White-just-moved; its file = `ep_file`." -/
def Board.enPassantSquare (b : Board) : Option Nat :=
  if canEnPassant b.flags then
    some (match b.activeColor with
      | .white => 40 + enPassantFile b.flags
      | .black => 16 + enPassantFile b.flags)
  else none

/-- `MoveGen::pawn_captures`: per-pawn capture masks intersected with
enemy occupancy or the en-passant target square, with promotion fan-out. -/
def MoveGen.pawnCaptures (b : Board) (color : Color) : List Move :=
  let enemyPieces := b.colorBB color.inverse
  let enPassant : Nat :=
    match b.enPassantSquare with
    | some square => 1 <<< square
    | none => 0
  (popLsbSeq (b.bitboard .pawn color)).flatMap (fun sourceI =>
    let captureMask := pawnCaptureMask sourceI color
    let targets := (captureMask &&& enemyPieces) ||| (captureMask &&& enPassant)
    (popLsbSeq targets).flatMap (fun t => movesWithPossiblePromotions sourceI t))

/-- `MoveGen::pseudolegal_moves`: the per-piece generators for the side
to move in source order.  The king square is
`Square::ALL[trailing_zeros(King ∩ own)]`, which panics (here: `none`)
when the side to move has no king (`trailing_zeros(0) = 64`). -/
def MoveGen.pseudolegalMoves (b : Board) : Option (List Move) :=
  let friendlyColor := b.activeColor
  let knightSection := (popLsbSeq (b.bitboard .knight friendlyColor)).flatMap
    (fun s => MoveGen.knightMoves b friendlyColor s)
  let bishopSection := (popLsbSeq (b.bitboard .bishop friendlyColor)).flatMap
    (fun s => MoveGen.bishopMoves b friendlyColor s)
  let rookSection := (popLsbSeq (b.bitboard .rook friendlyColor)).flatMap
    (fun s => MoveGen.rookMoves b friendlyColor s)
  let queenSection := (popLsbSeq (b.bitboard .queen friendlyColor)).flatMap
    (fun s => MoveGen.queenMoves b friendlyColor s)
  let kingI := ctz (b.bitboard .king friendlyColor)
  if kingI < 64 then
    some (knightSection ++ bishopSection ++ rookSection ++ queenSection ++
      MoveGen.kingMoves b friendlyColor kingI ++
      MoveGen.pawnMoves b friendlyColor ++ MoveGen.pawnCaptures b friendlyColor)
  else none

/-! ### Perft harness (`perft/mod.rs`) -/

/-- The `for mv in &moves { count += perft_inner(make_move(mv), depth-1) }`
loop of `perft_inner`; the recursive call one level down is the
parameter `f`. -/
def perftFold (f : Board → Option Nat) (b : Board) :
    List Move → Nat → Option Nat
  | [], count => some count
  | mv :: rest, count =>
    match b.makeMove mv with
    | none => none
    | some child =>
      match f child with
      | none => none
      | some c => perftFold f b rest (count + c)

/-- `perft_inner`: moves are generated before the depth-0 check; depth 1
returns the list length; deeper levels accumulate over `make_move`.  A
panic anywhere (king lookup, `piece_at`) propagates as `none`. -/
def perftInner : Nat → Board → Option Nat
  | 0, b =>
    match MoveGen.pseudolegalMoves b with
    | none => none
    | some _ => some 1
  | 1, b =>
    match MoveGen.pseudolegalMoves b with
    | none => none
    | some moves => some moves.length
  | d + 2, b =>
    match MoveGen.pseudolegalMoves b with
    | none => none
    | some moves => perftFold (fun child => perftInner (d + 1) child) b moves 0

/-- `perft`: builds the engine and calls `perft_inner`. -/
def perft (b : Board) (depth : Nat) : Option Nat := perftInner depth b

/-- `divide_inner`: one entry per generated move; note the source pairs
each move with `perft_inner(board, depth - 1)` evaluated on the *parent*
board (the move is never applied), and returns no total. -/
def divideInner (b : Board) (depth : Nat) : Option (List (Nat × Move)) :=
  match MoveGen.pseudolegalMoves b with
  | none => none
  | some moves =>
    moves.mapM (fun mv => (perftInner (depth - 1) b).map (fun c => (c, mv)))

/-! ### FEN parsing (`Board::from_fen`) -/

/-- `ParseFenError`. -/
inductive ParseFenError where
  | wrongSectionCount
  | badPosition
  | badActiveColor
  | badCastlingRights
  | badEnPassant
  | badHalfmoves
  | badFullmoves
deriving DecidableEq

/-- `Piece::try_from(char)`. -/
def pieceOfChar (c : Char) : Option Piece :=
  match c with
  | 'p' | 'P' => some .pawn
  | 'n' | 'N' => some .knight
  | 'b' | 'B' => some .bishop
  | 'r' | 'R' => some .rook
  | 'q' | 'Q' => some .queen
  | 'k' | 'K' => some .king
  | _ => none

/-- Accumulator loop for `split_ascii_whitespace`. -/
def splitWsAux : List Char → List Char → List String
  | [], acc => if acc.isEmpty then [] else [String.mk acc.reverse]
  | c :: rest, acc =>
    if c.isWhitespace then
      if acc.isEmpty then splitWsAux rest []
      else String.mk acc.reverse :: splitWsAux rest []
    else splitWsAux rest (c :: acc)

/-- `str::split_ascii_whitespace`: nonempty chunks between whitespace. -/
def splitAsciiWhitespace (s : String) : List String := splitWsAux s.data []

/-- The piece-placement loop of `from_fen`.  Digits `'0'..='8'` advance
the file by `to_digit(9)`; piece letters place a piece at
`Square::ALL[rank as usize * 8 + file as usize]` (a panic — `none` —
when `rank` is negative or the index reaches 64); `'/'` starts the next
rank down. -/
def parsePosition : List Char → Int → Int → Board → Option (Except ParseFenError Board)
  | [], _, _, b => some (.ok b)
  | c :: rest, rank, file, b =>
    if '0' ≤ c ∧ c ≤ '8' then
      parsePosition rest rank (file + ((c.toNat : Int) - 48)) b
    else
      match pieceOfChar c with
      | some piece =>
        let color := if c.isUpper then Color.white else Color.black
        let idx : Int := rank * 8 + file
        if 0 ≤ rank ∧ idx < 64 then
          parsePosition rest rank (file + 1) (b.addPiece piece color idx.toNat)
        else none
      | none =>
        if c = '/' then parsePosition rest (rank - 1) 0 b
        else some (.error .badPosition)

/-- The castling-rights loop of `from_fen`: OR in one bit per letter;
any other character (including `'-'`) is `BadCastlingRights`. -/
def parseCastlingChars : List Char → Nat → Except ParseFenError Nat
  | [], flags => .ok flags
  | c :: rest, flags =>
    match c with
    | 'K' => parseCastlingChars rest (flags ||| 0b0001)
    | 'Q' => parseCastlingChars rest (flags ||| 0b0010)
    | 'k' => parseCastlingChars rest (flags ||| 0b0100)
    | 'q' => parseCastlingChars rest (flags ||| 0b1000)
    | _ => .error .badCastlingRights

/-- The file-letter table inside the en-passant branch of `from_fen`. -/
def fileCharValue (c : Char) : Option Nat :=
  match c with
  | 'a' => some 0
  | 'b' => some 1
  | 'c' => some 2
  | 'd' => some 3
  | 'e' => some 4
  | 'f' => some 5
  | 'g' => some 6
  | 'h' => some 7
  | _ => none

/-- The en-passant field of `from_fen`.  The source ORs the bare file
value into the flags byte (`board.flags.0 |= match file { 'a' => 0, … }`)
— with no shift into bits 5..7 and without setting the availability
bit 4 — and then only checks that the rank character is `'3'` or `'6'`. -/
def parseEnPassantField (s : String) (flags : Nat) : Except ParseFenError Nat :=
  if s = "-" then .ok flags
  else if s.length ≠ 2 then .error .badEnPassant
  else
    match s.data with
    | [fileChar, rankChar] =>
      match fileCharValue fileChar with
      | some v =>
        match rankChar with
        | '3' => .ok (flags ||| v)
        | '6' => .ok (flags ||| v)
        | _ => .error .badEnPassant
      | none => .error .badEnPassant
    | _ => .error .badEnPassant

/-- Decimal digit accumulation for `str::parse`. -/
def toNatAux : List Char → Nat → Option Nat
  | [], acc => some acc
  | c :: rest, acc =>
    if '0' ≤ c ∧ c ≤ '9' then toNatAux rest (acc * 10 + (c.toNat - 48))
    else none

/-- A decimal natural from a nonempty all-digit string. -/
def parseNatDigits (s : String) : Option Nat :=
  if s.data.isEmpty then none else toNatAux s.data 0

/-- `str::parse::<u8>` on ASCII digits. -/
def parseU8 (s : String) : Option Nat :=
  match parseNatDigits s with
  | some n => if n ≤ 255 then some n else none
  | none => none

/-- `str::parse::<u16>` on ASCII digits. -/
def parseU16 (s : String) : Option Nat :=
  match parseNatDigits s with
  | some n => if n ≤ 65535 then some n else none
  | none => none

/-- `Board::from_fen`: six whitespace-separated fields, each failing with
its own error kind; a missing field is `WrongSectionCount`; the outer
`none` is a position-loop indexing panic.  Extra fields are ignored. -/
def Board.fromFen (fen : String) : Option (Except ParseFenError Board) :=
  match splitAsciiWhitespace fen with
  | [] => some (.error .wrongSectionCount)
  | positionString :: rest1 =>
    match parsePosition positionString.data 7 0 Board.new with
    | none => none
    | some (.error e) => some (.error e)
    | some (.ok board1) =>
      match rest1 with
      | [] => some (.error .wrongSectionCount)
      | activeColorStr :: rest2 =>
        if activeColorStr.length ≠ 1 then some (.error .badActiveColor)
        else
          match (if activeColorStr = "w" then some Color.white
                 else if activeColorStr = "b" then some Color.black
                 else none) with
          | none => some (.error .badActiveColor)
          | some color =>
            let board2 := { board1 with activeColor := color }
            match rest2 with
            | [] => some (.error .wrongSectionCount)
            | castling :: rest3 =>
              match parseCastlingChars castling.data board2.flags with
              | .error e => some (.error e)
              | .ok flags1 =>
                match rest3 with
                | [] => some (.error .wrongSectionCount)
                | enPassantStr :: rest4 =>
                  match parseEnPassantField enPassantStr flags1 with
                  | .error e => some (.error e)
                  | .ok flags2 =>
                    match rest4 with
                    | [] => some (.error .wrongSectionCount)
                    | halfmovesStr :: rest5 =>
                      match parseU8 halfmovesStr with
                      | none => some (.error .badHalfmoves)
                      | some hm =>
                        match rest5 with
                        | [] => some (.error .wrongSectionCount)
                        | fullmovesStr :: _ =>
                          match parseU16 fullmovesStr with
                          | none => some (.error .badFullmoves)
                          | some fm =>
                            some (.ok { board2 with
                              flags := flags2, halfmoves := hm, fullmoves := fm })

/-! ### Square and move text (`Display` / `TryFrom<&str>`) -/

/-- `Display for Square`: file letter (`file + b'a'`) then rank digit
(`rank + b'1'`). -/
def squareString (square : Nat) : String :=
  let rank := (coords square).1
  let file := (coords square).2
  String.mk [Char.ofNat (file + 97), Char.ofNat (rank + 49)]

/-- The promotion letter of `Display for Move`; note the source prints
`'k'` for a knight promotion.  Pawn and king are `unreachable!()`
(`Move::promotion` never returns them). -/
def promotionChar (p : Piece) : Char :=
  match p with
  | .knight => 'k'
  | .bishop => 'b'
  | .rook => 'r'
  | .queen => 'q'
  | .pawn => ' '
  | .king => ' '

/-- `Display for Move`. -/
def moveString (m : Move) : String :=
  match m.promotion with
  | some piece =>
    squareString m.source ++ squareString m.target ++ String.mk [promotionChar piece]
  | none => squareString m.source ++ squareString m.target

/-- `TryFrom<&str> for Square`: the source is a 64-entry match sending
`"a1" ↦ A1 (= 0)`, …, `"h8" ↦ H8 (= 63)`; every entry is a file letter
`a..h` plus a rank digit `1..8` with value `rank*8 + file`, which is the
formula used here; anything else fails. -/
def parseSquare (s : String) : Option Nat :=
  match s.data with
  | [fileChar, rankChar] =>
    if 'a' ≤ fileChar ∧ fileChar ≤ 'h' ∧ '1' ≤ rankChar ∧ rankChar ≤ '8' then
      some ((rankChar.toNat - 49) * 8 + (fileChar.toNat - 97))
    else none
  | _ => none

/-- `TryFrom<&str> for Move`: length 4 or 5; two square slices
(`&value[0..2]`, `&value[2..4]`); optional promotion letter
`n|b|r|q` at byte 4. -/
def parseMove (value : String) : Option Move :=
  if value.length ≠ 4 ∧ value.length ≠ 5 then none
  else
    match parseSquare (String.mk (value.data.take 2)) with
    | none => none
    | some source =>
      match parseSquare (String.mk ((value.data.drop 2).take 2)) with
      | none => none
      | some target =>
        if value.length = 5 then
          match value.data.getD 4 ' ' with
          | 'n' => some (Move.new source target (some .knight))
          | 'b' => some (Move.new source target (some .bishop))
          | 'r' => some (Move.new source target (some .rook))
          | 'q' => some (Move.new source target (some .queen))
          | _ => none
        else some (Move.new source target none)

/-! ### Board invariants (§3 of the specification) -/

/-- Invariant 1: the six piece bitboards are pairwise disjoint. -/
def Inv1 (b : Board) : Prop :=
  ∀ j k : Fin 8, (j : Nat) < 6 → (k : Nat) < 6 → j ≠ k →
    b.bitboards j &&& b.bitboards k = 0

/-- Invariant 2: the two color planes are disjoint. -/
def Inv2 (b : Board) : Prop := b.bitboards 6 &&& b.bitboards 7 = 0

/-- Invariant 3: the union of the color planes equals the union of the
piece planes. -/
def Inv3 (b : Board) : Prop :=
  b.bitboards 6 ||| b.bitboards 7 =
    b.bitboards 0 ||| b.bitboards 1 ||| b.bitboards 2 |||
      b.bitboards 3 ||| b.bitboards 4 ||| b.bitboards 5

/-- Invariants 1–3 together. -/
def BoardInv (b : Board) : Prop := Inv1 b ∧ Inv2 b ∧ Inv3 b

instance (b : Board) : Decidable (Inv1 b) := by unfold Inv1; infer_instance

instance (b : Board) : Decidable (Inv2 b) := by unfold Inv2; infer_instance

instance (b : Board) : Decidable (Inv3 b) := by unfold Inv3; infer_instance

instance (b : Board) : Decidable (BoardInv b) := by
  unfold BoardInv; infer_instance

/-- The en-passant capture branch of `make_move` fires: the mover is a
pawn, the move is not a double push, en passant is available, and the
target sits on the recorded en-passant rank and file. -/
def EpFires (b : Board) (mv : Move) : Prop :=
  b.pieceAt mv.source = some (some Piece.pawn) ∧
  absDiff (coords mv.source).1 (coords mv.target).1 ≠ 2 ∧
  canEnPassant b.flags = true ∧
  (coords mv.target).1 =
    (match (if b.colorBB .white &&& (1 <<< mv.source) = 0
            then Color.black else Color.white) with
     | Color.white => 5
     | Color.black => 2) ∧
  (coords mv.target).2 = enPassantFile b.flags

/-- The square `make_move`'s en-passant branch clears:
`(from_rank, to_file)`. -/
def epCaptureSquare (mv : Move) : Nat :=
  (coords mv.source).1 * 8 + (coords mv.target).2

/-- When the en-passant branch fires, the square it clears must actually
hold a pawn of the non-moving color and must differ from the move's
target square. -/
def EpSafe (b : Board) (mv : Move) : Prop :=
  EpFires b mv →
    (b.bitboards 0).testBit (epCaptureSquare mv) = true ∧
    (b.bitboards (match (if b.colorBB .white &&& (1 <<< mv.source) = 0
        then Color.black else Color.white) with
      | Color.white => 7
      | Color.black => 6)).testBit (epCaptureSquare mv) = true ∧
    epCaptureSquare mv ≠ mv.target

/-- The invariants restricted to one square: `v k` is the square's
membership in plane `k`.  At most one piece plane, disjoint colors, and
color-union equal to piece-union. -/
def localOk (v : Fin 8 → Bool) : Prop :=
  (∀ j k : Fin 8, (j : Nat) < 6 → (k : Nat) < 6 → j ≠ k →
    ¬(v j = true ∧ v k = true)) ∧
  ¬(v 6 = true ∧ v 7 = true) ∧
  ((v 6 || v 7) = (v 0 || v 1 || v 2 || v 3 || v 4 || v 5))

/-! Concrete boards and data used by the claim-level theorems below. -/

/-- The magic entry exhibiting the verification gap of `try_fill_table`:
bishop square a1, the construction's own mask and index width, and a
magic found by the same random search the source performs. -/
def c1Entry : MagicEntry :=
  { mask := 0x40201008040200, magic := 0x8004a0400908008, indexBits := 10 }

/-- A board holding exactly one white rook on e4 (square 28). -/
def c4Board : Board :=
  { bitboards := fun i =>
      match i with
      | 3 => 0x10000000
      | 6 => 0x10000000
      | _ => 0
    activeColor := .white
    flags := 0
    halfmoves := 0
    fullmoves := 0 }

/-- A board whose white occupancy claims e4 while every piece plane is
empty (violating invariant 3). -/
def c9Board : Board :=
  { bitboards := fun i =>
      match i with
      | 6 => 0x10000000
      | _ => 0
    activeColor := .white
    flags := 0
    halfmoves := 0
    fullmoves := 0 }

/-- The UCI promotion suffix of §6 of the specification
(`n | b | r | q`, lowercase). -/
def uciSuffix : Option Piece → String
  | some Piece.knight => "n"
  | some Piece.bishop => "b"
  | some Piece.rook => "r"
  | some Piece.queen => "q"
  | _ => ""

/-- The promotions for which the UCI round trip is claimed after the
amendment (no promotion, or bishop/rook/queen). -/
def c7promos : Fin 4 → Option Piece
  | 0 => none
  | 1 => some Piece.bishop
  | 2 => some Piece.rook
  | 3 => some Piece.queen

/-- Monadic map over moves: `none` as soon as one entry fails, the list
of results otherwise (the shape of the depth-`d` perft recursion). -/
def mapOpt (g : Move → Option Nat) : List Move → Option (List Nat)
  | [] => some []
  | mv :: rest =>
    match g mv with
    | none => none
    | some c =>
      match mapOpt g rest with
      | none => none
      | some cs => some (c :: cs)

/-! ### Pointwise bit toolkit -/

theorem testBit_one_shiftLeft (n i : Nat) :
    (1 <<< n).testBit i = decide (n = i) := by
  rw [Nat.one_shiftLeft]; exact Nat.testBit_two_pow

theorem land_eq_zero_iff {x y : Nat} :
    x &&& y = 0 ↔ ∀ i, ¬(x.testBit i = true ∧ y.testBit i = true) := by
  constructor
  · intro h i hxy
    have hb := congrArg (fun z => z.testBit i) h
    simp only [Nat.testBit_and, Nat.zero_testBit] at hb
    rw [hxy.1, hxy.2] at hb
    simp at hb
  · intro h
    apply Nat.eq_of_testBit_eq
    intro i
    simp only [Nat.testBit_and, Nat.zero_testBit]
    rcases hx : x.testBit i with _ | _
    · simp
    · rcases hy : y.testBit i with _ | _
      · simp
      · exact absurd ⟨hx, hy⟩ (h i)

theorem updBB_testBit (bb : Fin 8 → Nat) (j : Fin 8) (m : Nat) (k : Fin 8)
    (i : Nat) :
    (updBB bb j m k).testBit i =
      ((bb k).testBit i).xor (decide (k = j) && m.testBit i) := by
  unfold updBB
  rcases eq_or_ne k j with h | h
  · subst h; simp [Function.update_apply, Nat.testBit_xor]
  · simp [Function.update_apply, h]

theorem planeAt_eq_none {b : Board} {s : Nat} (h : b.planeAt s = none) :
    ∀ j : Fin 8, (b.bitboards j).testBit s = false := by
  intro j
  unfold Board.planeAt at h
  split_ifs at h with h0 h1 h2 h3 h4 h5 h6 h7
  fin_cases j <;> simp_all

theorem planeAt_eq_some {b : Board} {s : Nat} {j : Fin 8}
    (h : b.planeAt s = some j) : (b.bitboards j).testBit s = true := by
  unfold Board.planeAt at h
  split_ifs at h with h0 h1 h2 h3 h4 h5 h6 h7 <;>
    injection h with h <;> subst h <;> assumption

theorem pieceAt_some_some {b : Board} {s : Nat} {p : Piece}
    (h : b.pieceAt s = some (some p)) :
    (b.bitboards p.idx).testBit s = true := by
  unfold Board.pieceAt at h
  rcases hpa : b.planeAt s with _ | j
  · rw [hpa] at h; simp at h
  · rw [hpa] at h
    have hj := planeAt_eq_some hpa
    fin_cases j <;> simp only [pieceAll, Fin.isValue, Option.map] at h <;>
      first
        | (injection h with h; injection h with h; subst h; simpa [Piece.idx] using hj)
        | simp at h

theorem pieceAt_some_none {b : Board} {s : Nat}
    (h : b.pieceAt s = some none) :
    ∀ j : Fin 8, (b.bitboards j).testBit s = false := by
  unfold Board.pieceAt at h
  rcases hpa : b.planeAt s with _ | j
  · exact planeAt_eq_none hpa
  · rw [hpa] at h
    fin_cases j <;> simp [pieceAll] at h

/-! ### Local (per-square) view of the invariants -/

theorem boardInv_iff_localOk (b : Board) :
    BoardInv b ↔ ∀ i, localOk (fun k => (b.bitboards k).testBit i) := by
  constructor
  · rintro ⟨h1, h2, h3⟩ i
    refine ⟨fun j k hj hk hjk => (land_eq_zero_iff.mp (h1 j k hj hk hjk)) i,
      (land_eq_zero_iff.mp h2) i, ?_⟩
    have := congrArg (fun z => z.testBit i) h3
    simpa [Nat.testBit_or] using this
  · intro h
    refine ⟨fun j k hj hk hjk => land_eq_zero_iff.mpr (fun i => (h i).1 j k hj hk hjk),
      land_eq_zero_iff.mpr (fun i => (h i).2.1), ?_⟩
    apply Nat.eq_of_testBit_eq
    intro i
    simpa [Nat.testBit_or] using (h i).2.2

theorem localOk_congr {v w : Fin 8 → Bool} (h : ∀ k, v k = w k)
    (hw : localOk w) : localOk v := by
  have hvw : v = w := funext h
  rw [hvw]; exact hw

theorem localOk_all_false {v : Fin 8 → Bool} (h : ∀ k, v k = false) :
    localOk v := by
  refine ⟨fun j k _ _ _ hjk => ?_, fun hjk => ?_, ?_⟩
  · rw [h j] at hjk; exact absurd hjk.1 (by simp)
  · rw [h 6] at hjk; exact absurd hjk.1 (by simp)
  · simp [h]

/-- A square holding exactly one piece (plane `X`) of one color
(plane `d`) satisfies the local invariants. -/
theorem localOk_single {v : Fin 8 → Bool} (X d : Fin 8) (hX : (X : Nat) < 6)
    (hd : (d : Nat) = 6 ∨ (d : Nat) = 7)
    (h : ∀ k, v k = (decide (k = X) || decide (k = d))) : localOk v := by
  have hvX : v X = true := by rw [h X]; simp
  have hvd : v d = true := by rw [h d]; simp
  refine ⟨fun j k hj hk hjk => ?_, fun hc => ?_, ?_⟩
  · intro hvv
    have hdj : j ≠ d := by
      intro hh; subst hh; rcases hd with hd | hd <;> omega
    have hdk : k ≠ d := by
      intro hh; subst hh; rcases hd with hd | hd <;> omega
    rcases hvv with ⟨hj1, hk1⟩
    rw [h j] at hj1
    rw [h k] at hk1
    simp [hdj, hdk] at hj1 hk1
    exact hjk (hj1.trans hk1.symm)
  · have h6 : (6 : Fin 8) ≠ X := by
      intro hh; rw [← hh] at hX; exact absurd hX (by decide)
    have h7 : (7 : Fin 8) ≠ X := by
      intro hh; rw [← hh] at hX; exact absurd hX (by decide)
    rcases hc with ⟨hc6, hc7⟩
    rw [h 6] at hc6
    rw [h 7] at hc7
    simp [h6, h7] at hc6 hc7
    have h67 : (6 : Fin 8) = (7 : Fin 8) := hc6.trans hc7.symm
    simp at h67
  · have hL : (v 6 || v 7) = true := by
      rcases hd with hd | hd
      · have hd8 : d = (6 : Fin 8) := Fin.ext (by rw [hd]; decide)
        subst hd8; simp [hvd]
      · have hd8 : d = (7 : Fin 8) := Fin.ext (by rw [hd]; decide)
        subst hd8; simp [hvd]
    have hR : (v 0 || v 1 || v 2 || v 3 || v 4 || v 5) = true := by
      fin_cases X <;> simp_all
    rw [hL, hR]

/-- In a locally-invariant square, membership in one piece plane `X` and
one color plane `d` forces every other plane's bit to be clear. -/
theorem localOk_unique {v : Fin 8 → Bool} (hv : localOk v) (X d : Fin 8)
    (hX : (X : Nat) < 6) (hd : (d : Nat) = 6 ∨ (d : Nat) = 7)
    (hvX : v X = true) (hvd : v d = true) :
    ∀ k, v k = (decide (k = X) || decide (k = d)) := by
  intro k
  by_cases h1 : k = X
  · subst h1; simp [hvX]
  · by_cases h2 : k = d
    · subst h2; simp [hvd]
    · simp only [h1, h2, decide_eq_false h1, decide_eq_false h2, Bool.or_false]
      by_cases hk6 : (k : Nat) < 6
      · rcases hvk : v k with _ | _
        · rfl
        · exact absurd ⟨hvk, hvX⟩ (hv.1 k X hk6 hX h1)
      · have hk67 : (k : Nat) = 6 ∨ (k : Nat) = 7 := by
          have := k.isLt; omega
        have hdk : (k : Nat) ≠ (d : Nat) := fun hh => h2 (Fin.ext hh)
        have h67 := hv.2.1
        rcases hk67 with hk | hk <;> rcases hd with hdv | hdv
        · omega
        · have hk8 : k = (6 : Fin 8) := Fin.ext (by rw [hk]; decide)
          have hd8 : d = (7 : Fin 8) := Fin.ext (by rw [hdv]; decide)
          subst hk8
          rw [hd8] at hvd
          rcases hvk : v 6 with _ | _
          · rfl
          · exact absurd ⟨hvk, hvd⟩ h67
        · have hk8 : k = (7 : Fin 8) := Fin.ext (by rw [hk]; decide)
          have hd8 : d = (6 : Fin 8) := Fin.ext (by rw [hdv]; decide)
          subst hk8
          rw [hd8] at hvd
          rcases hvk : v 7 with _ | _
          · rfl
          · exact absurd ⟨hvd, hvk⟩ h67
        · omega

theorem piece_idx_lt (p : Piece) : (p.idx : Nat) < 6 := by
  cases p <;> decide

theorem color_idx_cases (c : Color) :
    ((c.idx : Nat) = 6 ∧ (c.inverse.idx : Nat) = 7) ∨
    ((c.idx : Nat) = 7 ∧ (c.inverse.idx : Nat) = 6) := by
  cases c <;> simp [Color.idx, Color.inverse] <;> decide

/-- Core of the `make_move` invariant argument: the From / To /
Replace-pieces updates keep every square locally invariant, provided the
from- and to-squares differ, the mover's piece and color planes really
contain the from-square, and `toPiece` faithfully reports the target
square's piece plane. -/
theorem stepMain_localOk (planes : Fin 8 → Nat) (p : Piece) (col : Color)
    (tp pr : Option Piece) (f t : Nat)
    (hinv : ∀ i, localOk (fun k => (planes k).testBit i))
    (hft : f ≠ t)
    (hpf : (planes p.idx).testBit f = true)
    (hcol : (planes col.idx).testBit f = true)
    (htps : ∀ q, tp = some q → (planes q.idx).testBit t = true)
    (htpn : tp = none → ∀ j : Fin 8, (planes j).testBit t = false) :
    ∀ i, localOk (fun k =>
      ((stepPromo (stepCapture (stepFrom planes p col f t) tp col t)
        pr p t) k).testBit i) := by
  intro i
  have hcolor := color_idx_cases col
  have hdOr : (col.idx : Nat) = 6 ∨ (col.idx : Nat) = 7 := by
    rcases hcolor with ⟨h6, _⟩ | ⟨h6, _⟩
    · exact Or.inl h6
    · exact Or.inr h6
  have heOr : (col.inverse.idx : Nat) = 6 ∨ (col.inverse.idx : Nat) = 7 := by
    rcases hcolor with ⟨_, h7⟩ | ⟨_, h7⟩
    · exact Or.inr h7
    · exact Or.inl h7
  have hPC : ∀ pp : Piece, pp.idx ≠ col.idx := by
    intro pp hh
    have := piece_idx_lt pp
    rw [hh] at this
    rcases hdOr with h | h <;> omega
  have hPE : ∀ pp : Piece, pp.idx ≠ col.inverse.idx := by
    intro pp hh
    have := piece_idx_lt pp
    rw [hh] at this
    rcases heOr with h | h <;> omega
  have hCP : ∀ pp : Piece, col.idx ≠ pp.idx := fun pp => (hPC pp).symm
  have hEP : ∀ pp : Piece, col.inverse.idx ≠ pp.idx := fun pp => (hPE pp).symm
  have hCE : col.idx ≠ col.inverse.idx := by
    intro hh
    have := congrArg Fin.val hh
    rcases hcolor with ⟨h6, h7⟩ | ⟨h6, h7⟩ <;> omega
  have hEC : col.inverse.idx ≠ col.idx := hCE.symm
  have hUf := localOk_unique (hinv f) p.idx col.idx (piece_idx_lt p) hdOr hpf hcol
  by_cases hfi : f = i
  · subst hfi
    have htf : ¬ t = f := fun hh => hft hh.symm
    apply localOk_all_false
    intro k
    rcases tp with _ | q <;> rcases pr with _ | x <;>
      (simp only [stepPromo, stepCapture, stepFrom, updBB_testBit,
        Nat.testBit_or, testBit_one_shiftLeft, decide_eq_false htf,
        Bool.and_false, Bool.xor_false]
       rw [hUf k]
       by_cases hk1 : k = p.idx
       · subst hk1
         simp [hPC p]
       · by_cases hk2 : k = col.idx
         · subst hk2
           simp [hCP p]
         · simp [hk1, hk2])
  · by_cases hti : t = i
    · subst hti
      have hfta : ¬ f = t := hft
      rcases tp with _ | q
      · have hTall := htpn rfl
        rcases pr with _ | x
        · apply localOk_single p.idx col.idx (piece_idx_lt p) hdOr
          intro k
          simp only [stepPromo, stepCapture, stepFrom, updBB_testBit,
            Nat.testBit_or, testBit_one_shiftLeft, decide_eq_false hfta,
            Bool.and_false, Bool.xor_false, Bool.false_or, Bool.and_true]
          rw [hTall k]
          by_cases hk1 : k = p.idx
          · subst hk1
            simp [hPC p]
          · by_cases hk2 : k = col.idx
            · subst hk2
              simp [hCP p]
            · simp [hk1, hk2]
        · apply localOk_single x.idx col.idx (piece_idx_lt x) hdOr
          intro k
          simp only [stepPromo, stepCapture, stepFrom, updBB_testBit,
            Nat.testBit_or, testBit_one_shiftLeft, decide_eq_false hfta,
            Bool.and_false, Bool.xor_false, Bool.false_or, Bool.and_true]
          rw [hTall k]
          by_cases hk1 : k = x.idx
          · subst hk1
            simp [hPC x]
          · by_cases hk2 : k = col.idx
            · subst hk2
              simp [hCP x]
            · simp [hk1, hk2]
      · have hq := htps q rfl
        rcases hvc : (planes col.idx).testBit t with _ | _
        · -- the mover's color does not hold the target: the occupant is
          -- the enemy's (invariant 3 forces a color under the piece)
          have hPU : ((planes 0).testBit t || (planes 1).testBit t ||
              (planes 2).testBit t || (planes 3).testBit t ||
              (planes 4).testBit t || (planes 5).testBit t) = true := by
            cases q <;> simp only [Piece.idx] at hq <;> simp [hq]
          have hCU : ((planes 6).testBit t || (planes 7).testBit t) = true := by
            rw [(hinv t).2.2]; exact hPU
          have hve : (planes col.inverse.idx).testBit t = true := by
            rcases hcolor with ⟨h6, h7⟩ | ⟨h6, h7⟩
            · have hc8 : col.idx = (6 : Fin 8) := Fin.ext (by rw [h6]; decide)
              have he8 : col.inverse.idx = (7 : Fin 8) := Fin.ext (by rw [h7]; decide)
              rw [hc8] at hvc
              rw [he8]
              simpa [hvc] using hCU
            · have hc8 : col.idx = (7 : Fin 8) := Fin.ext (by rw [h6]; decide)
              have he8 : col.inverse.idx = (6 : Fin 8) := Fin.ext (by rw [h7]; decide)
              rw [hc8] at hvc
              rw [he8]
              simpa [hvc] using hCU
          have hUt := localOk_unique (hinv t) q.idx col.inverse.idx
            (piece_idx_lt q) heOr hq hve
          rcases pr with _ | x
          · apply localOk_single p.idx col.idx (piece_idx_lt p) hdOr
            intro k
            simp only [stepPromo, stepCapture, stepFrom, updBB_testBit,
              Nat.testBit_or, testBit_one_shiftLeft, decide_eq_false hfta,
              Bool.and_false, Bool.xor_false, Bool.false_or, Bool.and_true]
            rw [hUt k]
            by_cases hk1 : k = p.idx
            · subst hk1
              simp [hPC p, hPE p]
            · by_cases hk2 : k = col.idx
              · subst hk2
                simp [hCP p, hCP q, hCE]
              · by_cases hk3 : k = q.idx
                · subst hk3
                  simp [hPC q, hPE q, hk1]
                · by_cases hk4 : k = col.inverse.idx
                  · subst hk4
                    simp [hEP p, hEP q, hEC]
                  · simp [hk1, hk2, hk3, hk4]
          · apply localOk_single x.idx col.idx (piece_idx_lt x) hdOr
            intro k
            simp only [stepPromo, stepCapture, stepFrom, updBB_testBit,
              Nat.testBit_or, testBit_one_shiftLeft, decide_eq_false hfta,
              Bool.and_false, Bool.xor_false, Bool.false_or, Bool.and_true]
            rw [hUt k]
            by_cases hk1 : k = p.idx
            · subst hk1
              simp [hPC p, hPE p]
            · by_cases hk2 : k = col.idx
              · subst hk2
                simp [hCP p, hCP q, hCP x, hCE]
              · by_cases hk3 : k = q.idx
                · subst hk3
                  simp [hPC q, hPE q, hk1]
                · by_cases hk4 : k = col.inverse.idx
                  · subst hk4
                    simp [hEP p, hEP q, hEP x, hEC]
                  · by_cases hk5 : k = x.idx
                    · subst hk5
                      simp [hPC x, hPE x, hk1, hk2, hk3, hk4]
                    · simp [hk1, hk2, hk3, hk4, hk5]
        · -- the mover's own color holds the target: the capture branch
          -- hands the square over to the enemy color
          have hUt := localOk_unique (hinv t) q.idx col.idx
            (piece_idx_lt q) hdOr hq hvc
          rcases pr with _ | x
          · apply localOk_single p.idx col.inverse.idx (piece_idx_lt p) heOr
            intro k
            simp only [stepPromo, stepCapture, stepFrom, updBB_testBit,
              Nat.testBit_or, testBit_one_shiftLeft, decide_eq_false hfta,
              Bool.and_false, Bool.xor_false, Bool.false_or, Bool.and_true]
            rw [hUt k]
            by_cases hk1 : k = p.idx
            · subst hk1
              simp [hPC p, hPE p]
            · by_cases hk2 : k = col.idx
              · subst hk2
                simp [hCP p, hCP q, hCE]
              · by_cases hk3 : k = q.idx
                · subst hk3
                  simp [hPC q, hPE q, hk1]
                · by_cases hk4 : k = col.inverse.idx
                  · subst hk4
                    simp [hEP p, hEP q, hEC]
                  · simp [hk1, hk2, hk3, hk4]
          · apply localOk_single x.idx col.inverse.idx (piece_idx_lt x) heOr
            intro k
            simp only [stepPromo, stepCapture, stepFrom, updBB_testBit,
              Nat.testBit_or, testBit_one_shiftLeft, decide_eq_false hfta,
              Bool.and_false, Bool.xor_false, Bool.false_or, Bool.and_true]
            rw [hUt k]
            by_cases hk1 : k = p.idx
            · subst hk1
              simp [hPC p, hPE p]
            · by_cases hk2 : k = col.idx
              · subst hk2
                simp [hCP p, hCP q, hCP x, hCE]
              · by_cases hk3 : k = q.idx
                · subst hk3
                  simp [hPC q, hPE q, hk1]
                · by_cases hk4 : k = col.inverse.idx
                  · subst hk4
                    simp [hEP p, hEP q, hEP x, hEC]
                  · by_cases hk5 : k = x.idx
                    · subst hk5
                      simp [hPC x, hPE x, hk1, hk2, hk3, hk4]
                    · simp [hk1, hk2, hk3, hk4, hk5]
    · -- untouched square
      apply localOk_congr (w := fun k => (planes k).testBit i) ?_ (hinv i)
      intro k
      rcases tp with _ | q <;> rcases pr with _ | x <;>
        simp only [stepPromo, stepCapture, stepFrom, updBB_testBit,
          Nat.testBit_or, testBit_one_shiftLeft, decide_eq_false hfi,
          decide_eq_false hti, Bool.and_false, Bool.or_false,
          Bool.xor_false, Bool.false_or]

/-- Bits outside the cleared square are untouched by the en-passant
removal. -/
theorem stepEpRemove_testBit_ne (planes : Fin 8 → Nat) (col : Color)
    (c : Nat) (k : Fin 8) (i : Nat) (hic : ¬ c = i) :
    ((stepEpRemove planes col c) k).testBit i = (planes k).testBit i := by
  simp only [stepEpRemove, updBB_testBit, testBit_one_shiftLeft,
    decide_eq_false hic, Bool.and_false, Bool.xor_false]

/-- Removing an enemy pawn that is really present keeps every square
locally invariant. -/
theorem stepEpRemove_localOk (planes : Fin 8 → Nat) (col : Color) (c : Nat)
    (hinv : ∀ i, localOk (fun k => (planes k).testBit i))
    (hpawn : (planes Piece.pawn.idx).testBit c = true)
    (henemy : (planes col.inverse.idx).testBit c = true) :
    ∀ i, localOk (fun k => ((stepEpRemove planes col c) k).testBit i) := by
  intro i
  by_cases hic : c = i
  · subst hic
    have heOr : (col.inverse.idx : Nat) = 6 ∨ (col.inverse.idx : Nat) = 7 := by
      rcases color_idx_cases col with ⟨_, h7⟩ | ⟨_, h7⟩
      · exact Or.inr h7
      · exact Or.inl h7
    have hPE : Piece.pawn.idx ≠ col.inverse.idx := by
      intro hh
      have := piece_idx_lt Piece.pawn
      rw [hh] at this
      rcases heOr with h | h <;> omega
    have hU := localOk_unique (hinv c) Piece.pawn.idx col.inverse.idx
      (piece_idx_lt Piece.pawn) heOr hpawn henemy
    apply localOk_all_false
    intro k
    simp only [stepEpRemove, updBB_testBit, testBit_one_shiftLeft,
      decide_eq_true_eq, Bool.and_true]
    rw [hU k]
    by_cases hk1 : k = Piece.pawn.idx
    · subst hk1
      simp [hPE]
    · by_cases hk2 : k = col.inverse.idx
      · subst hk2
        simp [hPE.symm]
      · simp [hk1, hk2]
  · apply localOk_congr (w := fun k => (planes k).testBit i)
      (fun k => stepEpRemove_testBit_ne planes col c k i hic) (hinv i)

/-- `x & (1 << f)` is nonzero exactly when bit `f` of `x` is set. -/
theorem land_one_shiftLeft_ne_zero (x f : Nat) :
    ¬ x &&& (1 <<< f) = 0 ↔ x.testBit f = true := by
  constructor
  · intro h
    rcases hb : x.testBit f with _ | _
    · exfalso
      apply h
      apply Nat.eq_of_testBit_eq
      intro i
      simp only [Nat.testBit_and, testBit_one_shiftLeft, Nat.zero_testBit]
      by_cases hfi : f = i
      · subst hfi; simp [hb]
      · simp [hfi]
    · rfl
  · intro h hz
    have := congrArg (fun z => z.testBit f) hz
    simp only [Nat.testBit_and, testBit_one_shiftLeft, Nat.zero_testBit] at this
    rw [h] at this
    simp at this

/-- The mover's color plane, as `make_move` computes it, really contains
the from-square whenever some piece plane does. -/
theorem moverColor_mem (b : Board) (f : Nat) (p : Piece)
    (hinv : ∀ i, localOk (fun k => (b.bitboards k).testBit i))
    (hpf : (b.bitboards p.idx).testBit f = true) :
    (b.bitboards (if b.colorBB .white &&& (1 <<< f) = 0 then Color.black
      else Color.white).idx).testBit f = true := by
  by_cases hwc : b.colorBB .white &&& (1 <<< f) = 0
  · rw [if_pos hwc]
    have hwf : (b.bitboards 6).testBit f = false := by
      rcases hb : (b.bitboards 6).testBit f with _ | _
      · rfl
      · exfalso
        apply (land_one_shiftLeft_ne_zero (b.colorBB .white) f).mpr _ hwc
        simpa [Board.colorBB, Color.idx] using hb
    have hPU : ((b.bitboards 0).testBit f || (b.bitboards 1).testBit f ||
        (b.bitboards 2).testBit f || (b.bitboards 3).testBit f ||
        (b.bitboards 4).testBit f || (b.bitboards 5).testBit f) = true := by
      cases p <;> simp only [Piece.idx] at hpf <;> simp [hpf]
    have hCU := (hinv f).2.2
    simp only at hCU
    rw [hPU, hwf] at hCU
    simp only [Bool.false_or] at hCU
    simpa [Color.idx] using hCU
  · rw [if_neg hwc]
    have := (land_one_shiftLeft_ne_zero (b.colorBB .white) f).mp hwc
    simpa [Board.colorBB, Color.idx] using this

/-- C4, amended: `make_move` preserves invariants 1–3 for every move
whose from- and to-squares differ, provided that when the en-passant
capture branch fires, the square it clears really holds an enemy pawn
and is not the move's target. -/
theorem makeMove_preserves_invariants (b : Board) (mv : Move)
    (hinv : BoardInv b) (hne : mv.source ≠ mv.target)
    (hsafe : EpSafe b mv) (b' : Board)
    (hmm : b.makeMove mv = some b') : BoardInv b' := by
  rw [boardInv_iff_localOk] at hinv ⊢
  unfold Board.makeMove at hmm
  simp only [] at hmm
  rcases hpa : b.pieceAt mv.source with _ | op
  · rw [hpa] at hmm
    simp at hmm
  rcases op with _ | p
  · rw [hpa] at hmm
    simp only [Option.some.injEq] at hmm
    rw [← hmm]
    exact hinv
  rcases hta : b.pieceAt mv.target with _ | tp
  · rw [hpa, hta] at hmm
    simp at hmm
  rw [hpa, hta] at hmm
  simp only [Option.some.injEq] at hmm
  have hpf := pieceAt_some_some hpa
  have hcol := moverColor_mem b mv.source p hinv hpf
  have htps : ∀ q, tp = some q →
      (b.bitboards q.idx).testBit mv.target = true := by
    intro q hq
    subst hq
    exact pieceAt_some_some hta
  have htpn : tp = none →
      ∀ j : Fin 8, (b.bitboards j).testBit mv.target = false := by
    intro hq
    subst hq
    exact pieceAt_some_none hta
  set col : Color := (if b.colorBB .white &&& (1 <<< mv.source) = 0
    then Color.black else Color.white) with hcoldef
  clear_value col
  by_cases hpwn : p = Piece.pawn
  · subst hpwn
    by_cases hrd : absDiff (coords mv.source).1 (coords mv.target).1 = 2
    · rw [if_pos rfl, if_pos hrd] at hmm
      rw [← hmm]
      exact stepMain_localOk b.bitboards Piece.pawn col tp mv.promotion
        mv.source mv.target hinv hne hpf hcol htps htpn
    · rw [if_pos rfl, if_neg hrd] at hmm
      split at hmm
      · rename_i hep
        have hfires : EpFires b mv :=
          ⟨hpa, hrd, hep.1, by rw [← hcoldef]; exact hep.2.1, hep.2.2⟩
        obtain ⟨hpawnc, henemyc0, hct⟩ := hsafe hfires
        have henemyc : (b.bitboards col.inverse.idx).testBit
            (epCaptureSquare mv) = true := by
          by_cases hwc : b.colorBB .white &&& (1 <<< mv.source) = 0
          · have hcolv : col = Color.black := by rw [hcoldef, if_pos hwc]
            simp only [if_pos hwc] at henemyc0
            rw [hcolv]
            simpa [Color.inverse, Color.idx] using henemyc0
          · have hcolv : col = Color.white := by rw [hcoldef, if_neg hwc]
            simp only [if_neg hwc] at henemyc0
            rw [hcolv]
            simpa [Color.inverse, Color.idx] using henemyc0
        have hcv : epCaptureSquare mv =
            (coords mv.source).1 * 8 + (coords mv.target).2 := rfl
        rw [← hcv] at hmm
        have hfc : ¬ epCaptureSquare mv = mv.source := by
          intro hh
          have hef : (b.bitboards col.inverse.idx).testBit mv.source = true := by
            rw [← hh]; exact henemyc
          have heOr : (col.inverse.idx : Nat) = 6 ∨ (col.inverse.idx : Nat) = 7 := by
            rcases color_idx_cases col with ⟨_, h7⟩ | ⟨_, h7⟩
            · exact Or.inr h7
            · exact Or.inl h7
          have hdOr : (col.idx : Nat) = 6 ∨ (col.idx : Nat) = 7 := by
            rcases color_idx_cases col with ⟨h6, _⟩ | ⟨h6, _⟩
            · exact Or.inl h6
            · exact Or.inr h6
          have h67 := (hinv mv.source).2.1
          rcases color_idx_cases col with ⟨h6, h7⟩ | ⟨h6, h7⟩
          · have hc8 : col.idx = (6 : Fin 8) := Fin.ext (by rw [h6]; decide)
            have he8 : col.inverse.idx = (7 : Fin 8) := Fin.ext (by rw [h7]; decide)
            rw [hc8] at hcol
            rw [he8] at hef
            exact h67 ⟨hcol, hef⟩
          · have hc8 : col.idx = (7 : Fin 8) := Fin.ext (by rw [h6]; decide)
            have he8 : col.inverse.idx = (6 : Fin 8) := Fin.ext (by rw [h7]; decide)
            rw [hc8] at hcol
            rw [he8] at hef
            exact h67 ⟨hef, hcol⟩
        rw [← hmm]
        have hinv2 := stepEpRemove_localOk b.bitboards col
          (epCaptureSquare mv) hinv hpawnc henemyc
        have hne2 : ∀ (k : Fin 8) (i : Nat), ¬ epCaptureSquare mv = i →
            ((stepEpRemove b.bitboards col (epCaptureSquare mv)) k).testBit i =
              (b.bitboards k).testBit i := fun k i h =>
          stepEpRemove_testBit_ne b.bitboards col (epCaptureSquare mv) k i h
        exact stepMain_localOk
          (stepEpRemove b.bitboards col (epCaptureSquare mv))
          Piece.pawn col tp mv.promotion mv.source mv.target
          hinv2
          hne
          (by rw [hne2 _ _ hfc]; exact hpf)
          (by rw [hne2 _ _ hfc]; exact hcol)
          (fun q hq => by rw [hne2 _ _ hct]; exact htps q hq)
          (fun hq j => by rw [hne2 _ _ hct]; exact htpn hq j)
      · rw [← hmm]
        exact stepMain_localOk b.bitboards Piece.pawn col tp mv.promotion
          mv.source mv.target hinv hne hpf hcol htps htpn
  · rw [if_neg hpwn] at hmm
    rw [← hmm]
    exact stepMain_localOk b.bitboards p col tp mv.promotion
      mv.source mv.target hinv hne hpf hcol htps htpn

/-! ### Claim-level theorems -/

/-- C1: the magic-engine equivalence fails on the code.  For bishop
square a1, `c1Entry` carries the construction's own mask
(`bishop_blockers(a1)`) and index width (10), and `try_fill_table`
accepts it (the `map` below lands on `some`); yet the table lookup at
the blocker subset `{b2}` — a subset of the mask, and precisely the one
subset the `Subsets` iterator never yields — returns the empty bitboard
`0`, while the deterministic ray-trace attack set for a1 with blockers
`{b2}` is `{b2} = 0x200`. -/
theorem magic_lookup_gap :
    c1Entry.mask = bishopBlockers 0 ∧
    0x200 &&& c1Entry.mask = 0x200 ∧
    (tryFillTable 0 Direction.diagonal c1Entry).map
      (fun table => tableLookup table c1Entry 0x200) = some 0 ∧
    Direction.diagonal.moves 0 0x200 = 0x200 := by decide

/-- C2: the subset enumeration does not yield all `2^popcount(S)`
subsets.  For `S = 1` it yields only the empty set (1 element, not
`2^1 = 2`, and `S` itself is missing); for `S = 0` it yields nothing
(not the required single empty subset); for `S = 0b1101` it yields 7 of
the 8 subsets, dropping the least significant bit subset `0b0001`
(the iterator returns `EMPTY` in place of the last nonzero subset). -/
theorem subsets_enumeration_bug :
    subsetsList 1 = [0] ∧
    (subsetsList 1).length ≠ 2 ^ (1 : Nat) ∧
    subsetsList 0 = [] ∧
    subsetsList 0b1101 = [13, 12, 9, 8, 5, 4, 0] ∧
    ¬ (1 : Nat) ∈ subsetsList 0b1101 := by decide

/-- C5: `pseudolegal_moves` panics when the side to move has no king.
On the empty board the king∩own bitboard is `0`, `trailing_zeros` is 64,
and the source indexes `Square::ALL[64]` — modelled here by the `none`
result — instead of returning normally. -/
theorem pseudolegal_no_king_panics :
    Board.new.bitboard Piece.king Board.new.activeColor = 0 ∧
    ctz (Board.new.bitboard Piece.king Board.new.activeColor) = 64 ∧
    (MoveGen.pseudolegalMoves Board.new).isSome = false := by decide

/-- C6: `from_fen` does not store the en-passant field per the §3
layout.  Parsing an empty board with castling `K` and en-passant `e3`
must, per the claim, produce flags `0b1001_0001` (bit 0 castling, bit 4
en-passant available, bits 5..7 = file 4); the code instead ORs the bare
file value 4 into the castling bits, yielding flags `0b0000_0101`
with the en-passant bit clear and the file bits zero. -/
theorem fromFen_ep_flags_bug :
    (Board.fromFen "8/8/8/8/8/8/8/8 w K e3 0 1").map (fun r =>
      match r with
      | Except.ok b2 => some (b2.flags, canEnPassant b2.flags, enPassantFile b2.flags)
      | Except.error _ => none) = some (some (5, false, 0)) := by decide

/-- C8: `divide` pairs every move with a count for the parent board.
At depth 2 from the starting position every entry carries
`perft(start, 1) = 20` — in particular the entry for a2a3 — while the
count the claim requires for a2a3, `perft(make_move(start, a2a3), 1)`,
is 19.  (The source also returns no total: its result type is
`Vec<(u32, Move)>` alone.) -/
theorem divide_counts_parent_board :
    (divideInner Board.default 2).map
      (fun l => decide ((20, Move.new 8 16 none) ∈ l)) = some true ∧
    (divideInner Board.default 2).map
      (fun l => l.map Prod.fst) = some (List.replicate 20 20) ∧
    (Board.default.makeMove (Move.new 8 16 none)).bind
      (fun child => perftInner 1 child) = some 19 := by decide

/-- The accumulator loop of `perft_inner` computes the sum of the
per-move recursive counts (propagating any panic as `none`). -/
theorem perftFold_eq_mapM (f : Board → Option Nat) (b : Board) :
    ∀ (ms : List Move) (acc : Nat),
      perftFold f b ms acc =
        (mapOpt (fun mv => (b.makeMove mv).bind f) ms).map
          (fun cs => acc + cs.sum) := by
  intro ms
  induction ms with
  | nil =>
    intro acc
    simp [perftFold, mapOpt]
  | cons mv rest ih =>
    intro acc
    cases hb : b.makeMove mv with
    | none => simp [perftFold, mapOpt, hb]
    | some child =>
      cases hc : f child with
      | none => simp [perftFold, mapOpt, hb, hc]
      | some c =>
        rw [show perftFold f b (mv :: rest) acc = perftFold f b rest (acc + c)
          from by simp [perftFold, hb, hc]]
        rw [ih (acc + c)]
        cases hm : mapOpt (fun mv => (b.makeMove mv).bind f) rest with
        | none => simp [mapOpt, hb, hc, hm]
        | some cs => simp [mapOpt, hb, hc, hm, Nat.add_assoc]

/-- C3, amended: whenever move generation succeeds (the side to move has
a king), `perft` satisfies the defining equations — depth 0 gives 1,
depth 1 gives the number of generated moves, and depth `d+2` is the sum
over the generated moves `m` of `perft(make_move(b, m), d+1)` (a panic
in any subtree propagates); and from the standard starting position
`perft(start, 1) = 20`. -/
theorem perft_spec :
    (∀ (b : Board) (ms : List Move),
      MoveGen.pseudolegalMoves b = some ms →
        perftInner 0 b = some 1 ∧
        perftInner 1 b = some ms.length ∧
        ∀ d : Nat,
          perftInner (d + 2) b =
            (mapOpt (fun mv => (b.makeMove mv).bind
              (fun child => perftInner (d + 1) child)) ms).map
              (fun cs => cs.sum)) ∧
    perftInner 1 Board.default = some 20 := by
  constructor
  · intro b ms h
    refine ⟨?_, ?_, ?_⟩
    · simp [perftInner, h]
    · simp [perftInner, h]
    · intro d
      simp only [perftInner, h]
      rw [perftFold_eq_mapM]
      simp
  · decide

/-- C3, counterexample to the claim as stated: `perft(b, 0)` is not 1
for every board `b` — on the empty board (no king for the side to move)
the move generation performed before the depth check panics, and
`perft_inner` propagates the panic (`none`) instead of returning 1. -/
theorem perft_depth0_kingless :
    perftInner 0 Board.new = none ∧ perftInner 0 Board.new ≠ some 1 := by
  decide

/-- Witness for `perft_spec` at the starting position. -/
theorem perft_spec_witness :
    perftInner 0 Board.default = some 1 ∧
    perftInner 1 Board.default = some 20 := by
  rcases ho : MoveGen.pseudolegalMoves Board.default with _ | ms
  · exact absurd ho (by decide)
  · exact ⟨(perft_spec.1 Board.default ms ho).1, perft_spec.2⟩

/-- The square text round trip (the 64-entry parse table inverts
`Display for Square`). -/
theorem squareString_parse :
    ∀ s : Fin 64, parseSquare (squareString (s : Nat)) = some (s : Nat) := by decide

set_option maxHeartbeats 4000000 in
/-- The packed 16-bit move word stores and recovers source, target and
promotion for the promotions the amended round trip speaks about. -/
theorem moveNew_components :
    ∀ (s1 s2 : Fin 64) (j : Fin 4),
      Move.source (Move.new (s1 : Nat) s2 (c7promos j)) = (s1 : Nat) ∧
      Move.target (Move.new (s1 : Nat) s2 (c7promos j)) = (s2 : Nat) ∧
      Move.promotion (Move.new (s1 : Nat) s2 (c7promos j)) = c7promos j := by decide

/-- C7, amended: `format(parse(t)) = t` holds for every legal UCI move
text without promotion or with promotion letter `b`, `r` or `q`; a
knight-promotion text (`…n`) parses but formats back with `k` in place
of `n` (see the counterexample). -/
theorem uci_roundtrip (s1 s2 : Fin 64) (pr : Option Piece)
    (hpr : pr = none ∨ pr = some Piece.bishop ∨ pr = some Piece.rook ∨
      pr = some Piece.queen) :
    (parseMove (squareString s1 ++ squareString s2 ++ uciSuffix pr)).map
      moveString = some (squareString s1 ++ squareString s2 ++ uciSuffix pr) := by
  obtain ⟨a1, a2, hA⟩ : ∃ c1 c2, (squareString s1).data = [c1, c2] := ⟨_, _, rfl⟩
  obtain ⟨b1, b2, hB⟩ : ∃ c1 c2, (squareString s2).data = [c1, c2] := ⟨_, _, rfl⟩
  have hmkA : String.mk [a1, a2] = squareString s1 := by rw [← hA]
  have hmkB : String.mk [b1, b2] = squareString s2 := by rw [← hB]
  rcases hpr with rfl | rfl | rfl | rfl
  · have hval : (squareString s1 ++ squareString s2 ++ uciSuffix none).data
        = [a1, a2, b1, b2] := by
      simp [String.data_append, hA, hB, uciSuffix]
    have hlen : (squareString s1 ++ squareString s2 ++ uciSuffix none).length
        = 4 := by
      have h1 : (squareString s1 ++ squareString s2 ++ uciSuffix none).length
          = (squareString s1 ++ squareString s2 ++ uciSuffix none).data.length := rfl
      rw [h1, hval]
      simp
    have hparse : parseMove (squareString s1 ++ squareString s2 ++ uciSuffix none)
        = some (Move.new s1 s2 (c7promos 0)) := by
      unfold parseMove
      rw [hlen, hval]
      rw [if_neg (by simp)]
      rw [show ([a1, a2, b1, b2] : List Char).take 2 = [a1, a2] from rfl]
      rw [show (([a1, a2, b1, b2] : List Char).drop 2).take 2 = [b1, b2] from rfl]
      rw [hmkA, hmkB, squareString_parse s1, squareString_parse s2]
      rfl
    rw [hparse]
    show some (moveString (Move.new (s1 : Nat) s2 (c7promos 0))) = _
    refine congrArg some ?_
    unfold moveString
    rw [(moveNew_components s1 s2 0).2.2]
    rw [(moveNew_components s1 s2 0).1, (moveNew_components s1 s2 0).2.1]
    rw [← hmkA, ← hmkB]
    rfl
  · have hval : (squareString s1 ++ squareString s2 ++ uciSuffix (some Piece.bishop)).data
        = [a1, a2, b1, b2, 'b'] := by
      simp [String.data_append, hA, hB, uciSuffix]
    have hlen : (squareString s1 ++ squareString s2 ++ uciSuffix (some Piece.bishop)).length
        = 5 := by
      have h1 : (squareString s1 ++ squareString s2 ++ uciSuffix (some Piece.bishop)).length
          = (squareString s1 ++ squareString s2 ++ uciSuffix (some Piece.bishop)).data.length := rfl
      rw [h1, hval]
      simp
    have hparse : parseMove (squareString s1 ++ squareString s2 ++ uciSuffix (some Piece.bishop))
        = some (Move.new s1 s2 (c7promos 1)) := by
      unfold parseMove
      rw [hlen, hval]
      rw [if_neg (by simp)]
      rw [show ([a1, a2, b1, b2, 'b'] : List Char).take 2 = [a1, a2] from rfl]
      rw [show (([a1, a2, b1, b2, 'b'] : List Char).drop 2).take 2 = [b1, b2] from rfl]
      rw [hmkA, hmkB, squareString_parse s1, squareString_parse s2]
      rfl
    rw [hparse]
    show some (moveString (Move.new (s1 : Nat) s2 (c7promos 1))) = _
    refine congrArg some ?_
    unfold moveString
    rw [(moveNew_components s1 s2 1).2.2]
    rw [(moveNew_components s1 s2 1).1, (moveNew_components s1 s2 1).2.1]
    rw [← hmkA, ← hmkB]
    rfl
  · have hval : (squareString s1 ++ squareString s2 ++ uciSuffix (some Piece.rook)).data
        = [a1, a2, b1, b2, 'r'] := by
      simp [String.data_append, hA, hB, uciSuffix]
    have hlen : (squareString s1 ++ squareString s2 ++ uciSuffix (some Piece.rook)).length
        = 5 := by
      have h1 : (squareString s1 ++ squareString s2 ++ uciSuffix (some Piece.rook)).length
          = (squareString s1 ++ squareString s2 ++ uciSuffix (some Piece.rook)).data.length := rfl
      rw [h1, hval]
      simp
    have hparse : parseMove (squareString s1 ++ squareString s2 ++ uciSuffix (some Piece.rook))
        = some (Move.new s1 s2 (c7promos 2)) := by
      unfold parseMove
      rw [hlen, hval]
      rw [if_neg (by simp)]
      rw [show ([a1, a2, b1, b2, 'r'] : List Char).take 2 = [a1, a2] from rfl]
      rw [show (([a1, a2, b1, b2, 'r'] : List Char).drop 2).take 2 = [b1, b2] from rfl]
      rw [hmkA, hmkB, squareString_parse s1, squareString_parse s2]
      rfl
    rw [hparse]
    show some (moveString (Move.new (s1 : Nat) s2 (c7promos 2))) = _
    refine congrArg some ?_
    unfold moveString
    rw [(moveNew_components s1 s2 2).2.2]
    rw [(moveNew_components s1 s2 2).1, (moveNew_components s1 s2 2).2.1]
    rw [← hmkA, ← hmkB]
    rfl
  · have hval : (squareString s1 ++ squareString s2 ++ uciSuffix (some Piece.queen)).data
        = [a1, a2, b1, b2, 'q'] := by
      simp [String.data_append, hA, hB, uciSuffix]
    have hlen : (squareString s1 ++ squareString s2 ++ uciSuffix (some Piece.queen)).length
        = 5 := by
      have h1 : (squareString s1 ++ squareString s2 ++ uciSuffix (some Piece.queen)).length
          = (squareString s1 ++ squareString s2 ++ uciSuffix (some Piece.queen)).data.length := rfl
      rw [h1, hval]
      simp
    have hparse : parseMove (squareString s1 ++ squareString s2 ++ uciSuffix (some Piece.queen))
        = some (Move.new s1 s2 (c7promos 3)) := by
      unfold parseMove
      rw [hlen, hval]
      rw [if_neg (by simp)]
      rw [show ([a1, a2, b1, b2, 'q'] : List Char).take 2 = [a1, a2] from rfl]
      rw [show (([a1, a2, b1, b2, 'q'] : List Char).drop 2).take 2 = [b1, b2] from rfl]
      rw [hmkA, hmkB, squareString_parse s1, squareString_parse s2]
      rfl
    rw [hparse]
    show some (moveString (Move.new (s1 : Nat) s2 (c7promos 3))) = _
    refine congrArg some ?_
    unfold moveString
    rw [(moveNew_components s1 s2 3).2.2]
    rw [(moveNew_components s1 s2 3).1, (moveNew_components s1 s2 3).2.1]
    rw [← hmkA, ← hmkB]
    rfl

/-- C7, counterexample to the claim as stated: the knight-promotion
text `a7a8n` parses, but formats back as `a7a8k` (the `Display`
implementation prints `'k'` for a knight promotion), so
`format(parse(t)) ≠ t`. -/
theorem knight_promotion_roundtrip_fails :
    (parseMove "a7a8n").map moveString = some "a7a8k" ∧
    (parseMove "a7a8n").map moveString ≠ some "a7a8n" := by decide

/-- Witness for `uci_roundtrip`: the queen-promotion text `a7a8q`. -/
theorem uci_roundtrip_witness :
    (parseMove (squareString (48 : Fin 64) ++ squareString (56 : Fin 64) ++
      uciSuffix (some Piece.queen))).map moveString =
    some (squareString (48 : Fin 64) ++ squareString (56 : Fin 64) ++
      uciSuffix (some Piece.queen)) :=
  uci_roundtrip 48 56 (some Piece.queen) (Or.inr (Or.inr (Or.inr rfl)))

/-- C4, counterexample to the unamended claim: on a board holding one
white rook on e4 — which satisfies invariants 1–3 — the move `e4e4`
(from-square equal to to-square, a representable 16-bit move) yields a
board that violates the invariants: the from/to XOR removes the rook
from its piece plane while the capture branch corrupts the color
planes. -/
theorem makeMove_same_square_breaks_invariants :
    BoardInv c4Board ∧
    (c4Board.makeMove (Move.new 28 28 none)).map
      (fun b2 => decide (BoardInv b2)) = some false := by decide

/-- Witness for `makeMove_preserves_invariants`: the double pawn push
`e2e4` from the standard starting position. -/
theorem makeMove_preserves_invariants_witness :
    BoardInv ((Board.default.makeMove (Move.new 12 28 none)).getD Board.new) := by
  rcases ho : Board.default.makeMove (Move.new 12 28 none) with _ | bb
  · exact absurd (congrArg Option.isSome ho) (by decide)
  · simp only [Option.getD_some]
    exact makeMove_preserves_invariants Board.default (Move.new 12 28 none)
      (by decide) (by decide)
      (by intro hf; unfold EpFires at hf; exact absurd hf.2.2.1 (by decide)) bb ho

/-- C9, amended: when the from-square is held by none of the eight
bitboards (piece planes *and* occupancy planes), `make_move` takes the
early return and yields the input board with only the en-passant
available bit cleared; every bitboard and every other field is
unchanged. -/
theorem makeMove_empty_from (b : Board) (mv : Move)
    (h : ∀ j : Fin 8, (b.bitboards j).testBit mv.source = false) :
    b.makeMove mv = some { b with flags := setEnPassant b.flags false } := by
  have hpa : b.pieceAt mv.source = some none := by
    unfold Board.pieceAt Board.planeAt
    rw [h 0, h 1, h 2, h 3, h 4, h 5, h 6, h 7]
    rfl
  unfold Board.makeMove
  simp only []
  rw [hpa]

/-- C9, counterexample to the claim as stated: on a board whose white
occupancy plane holds e4 while every piece plane is empty, the
from-square e4 is empty in the claim's sense (no piece plane contains
it), yet `make_move` does not return the board unchanged — `piece_at`'s
scan reaches the occupancy plane and indexes `Piece::ALL[6]`, a panic
(the `none` result). -/
theorem makeMove_color_only_from_panics :
    (∀ j : Fin 8, (j : Nat) < 6 → (c9Board.bitboards j).testBit 28 = false) ∧
    (c9Board.makeMove (Move.new 28 20 none)).isSome = false := by decide

/-- Witness for `makeMove_empty_from`: the empty board and the move
`a1b1`. -/
theorem makeMove_empty_from_witness :
    Board.new.makeMove (Move.new 0 1 none) =
      some { Board.new with flags := setEnPassant Board.new.flags false } :=
  makeMove_empty_from Board.new (Move.new 0 1 none) (by decide)

/-- `set_en_passant` touches only bit 4: the castling bits 0..3 are
unchanged. -/
theorem setEnPassant_low (f : Nat) (v : Bool) :
    setEnPassant f v &&& 15 = f &&& 15 := by
  apply Nat.eq_of_testBit_eq
  intro i
  simp only [setEnPassant, Nat.testBit_and, Nat.testBit_or, Nat.testBit_shiftLeft]
  rcases Nat.lt_or_ge i 4 with hi | hi
  · interval_cases i <;>
      simp [show Nat.testBit 239 0 = true from rfl,
        show Nat.testBit 239 1 = true from rfl,
        show Nat.testBit 239 2 = true from rfl,
        show Nat.testBit 239 3 = true from rfl]
  · have h15 : Nat.testBit 15 i = false := Nat.testBit_lt_two_pow (by
      calc (15:Nat) < 2 ^ 4 := by norm_num
      _ ≤ 2 ^ i := Nat.pow_le_pow_right (by norm_num) hi)
    simp [h15]

/-- `set_en_passant_file` touches only bits 5..7: the castling bits 0..3
are unchanged. -/
theorem setEnPassantFile_low (f x : Nat) :
    setEnPassantFile f x &&& 15 = f &&& 15 := by
  apply Nat.eq_of_testBit_eq
  intro i
  simp only [setEnPassantFile, Nat.testBit_and, Nat.testBit_or]
  rcases Nat.lt_or_ge i 4 with hi | hi
  · have hm : ((x <<< 5) % 256).testBit i = false := by
      have h1 : (x <<< 5) % 256 = (x % 8) <<< 5 := by
        rw [Nat.shiftLeft_eq, Nat.shiftLeft_eq]
        norm_num
        omega
      rw [h1, Nat.testBit_shiftLeft]
      have h2 : ¬(5 ≤ i) := by omega
      simp [h2]
    interval_cases i <;>
      simp [hm, show Nat.testBit 31 0 = true from rfl,
        show Nat.testBit 31 1 = true from rfl,
        show Nat.testBit 31 2 = true from rfl,
        show Nat.testBit 31 3 = true from rfl]
  · have h15 : Nat.testBit 15 i = false := Nat.testBit_lt_two_pow (by
      calc (15:Nat) < 2 ^ 4 := by norm_num
      _ ≤ 2 ^ i := Nat.pow_le_pow_right (by norm_num) hi)
    simp [h15]

/-- C10: on every board it returns, `make_move` changes only the eight
bitboards and the en-passant bits of the flags byte — the castling bits
0..3, the active color, and the half- and fullmove clocks of the result
equal those of the input; in particular the side to move is never
switched. -/
theorem makeMove_frame (b : Board) (mv : Move) (b' : Board)
    (hmm : b.makeMove mv = some b') :
    b'.activeColor = b.activeColor ∧
    b'.flags &&& 0b1111 = b.flags &&& 0b1111 ∧
    b'.halfmoves = b.halfmoves ∧
    b'.fullmoves = b.fullmoves := by
  have key : ∀ g s : Nat,
      setEnPassantFile (setEnPassant (setEnPassant g false) true) s &&& 15 =
        g &&& 15 := by
    intro g s
    rw [setEnPassantFile_low, setEnPassant_low, setEnPassant_low]
  unfold Board.makeMove at hmm
  simp only [] at hmm
  rcases hpa : b.pieceAt mv.source with _ | op
  · rw [hpa] at hmm
    simp at hmm
  rcases op with _ | p
  · rw [hpa] at hmm
    simp only [Option.some.injEq] at hmm
    rw [← hmm]
    exact ⟨rfl, setEnPassant_low b.flags false, rfl, rfl⟩
  rcases hta : b.pieceAt mv.target with _ | tp
  · rw [hpa, hta] at hmm
    simp at hmm
  rw [hpa, hta] at hmm
  simp only [Option.some.injEq] at hmm
  by_cases hpwn : p = Piece.pawn
  · subst hpwn
    by_cases hrd : absDiff (coords mv.source).1 (coords mv.target).1 = 2
    · rw [if_pos rfl, if_pos hrd] at hmm
      rw [← hmm]
      exact ⟨rfl, key b.flags (coords mv.source).2, rfl, rfl⟩
    · rw [if_pos rfl, if_neg hrd] at hmm
      split at hmm
      all_goals split at hmm
      all_goals rw [← hmm]
      all_goals exact ⟨rfl, setEnPassant_low b.flags false, rfl, rfl⟩
  · rw [if_neg hpwn] at hmm
    rw [← hmm]
    exact ⟨rfl, setEnPassant_low b.flags false, rfl, rfl⟩

/-- Witness for `makeMove_frame`: the double pawn push `e2e4` from the
standard starting position. -/
theorem makeMove_frame_witness :
    ((Board.default.makeMove (Move.new 12 28 none)).getD Board.new).activeColor =
      Board.default.activeColor ∧
    ((Board.default.makeMove (Move.new 12 28 none)).getD Board.new).flags &&& 0b1111 =
      Board.default.flags &&& 0b1111 ∧
    ((Board.default.makeMove (Move.new 12 28 none)).getD Board.new).halfmoves =
      Board.default.halfmoves ∧
    ((Board.default.makeMove (Move.new 12 28 none)).getD Board.new).fullmoves =
      Board.default.fullmoves := by
  rcases ho : Board.default.makeMove (Move.new 12 28 none) with _ | bb
  · exact absurd (congrArg Option.isSome ho) (by decide)
  · simp only [Option.getD_some]
    exact makeMove_frame Board.default (Move.new 12 28 none) bb ho

end Mogen
